import Mathlib

/-!
# Verification of the alinio text-alignment and table-formatting library

This file gives a shallow embedding of `src/align.rs` and `src/table.rs` and
proves or refutes the specified properties of the alignment engine
(`left`, `right`, `center`, `between`, `around`) and the table formatter
(`Table.render_partial` with its column-eviction loop).

Strings are modelled as lists of glyphs, each glyph carrying its display
width in terminal columns (the unicode display-width computation is an
external capability; what the code relies on is that the width of a
concatenation is the sum of the widths, which holds for the per-character
summation the `unicode_width` crate performs).  A Rust `Option` result is
an `Option` here; a Rust panic (out-of-bounds `Vec::remove`, `unwrap` of
`None`) is made explicit by the `RenderResult.panic` constructor.
-/

namespace Alinio

/-- A glyph of terminal text: an abstract character identity `code` together
with its display width `w` in terminal columns. -/
structure Glyph where
  code : Nat
  w : Nat
  deriving DecidableEq, Repr

/-- A string, modelled as the sequence of its glyphs. -/
abbrev Str := List Glyph

/-- The blank (space) glyph: code point 32, one column wide. -/
def sp : Glyph := ⟨32, 1⟩

/-- Display width of a string: the sum of its glyphs' widths
(`UnicodeWidthStr::width`). -/
def width (s : Str) : Nat := (s.map Glyph.w).sum

/-- `" ".repeat n`. -/
def blanks (n : Nat) : Str := List.replicate n sp

/-- `align::center` from `src/align.rs`. -/
def center (txt : Str) (space : Nat) : Option Str :=
  let len := width txt
  if len > space then none
  else
    let left_over := space - len
    let each := left_over / 2
    some (blanks each ++ txt ++ blanks (left_over - each))

/-- `align::left` from `src/align.rs`. -/
def left (txt : Str) (space : Nat) : Option Str :=
  let len := width txt
  if len > space then none
  else some (txt ++ blanks (space - len))

/-- `align::right` from `src/align.rs`. -/
def right (txt : Str) (space : Nat) : Option Str :=
  let len := width txt
  if len > space then none
  else some (blanks (space - len) ++ txt)

/-- The formatting loop of `align::between`: for each fragment `t` of the
first `pad_places` fragments, push `t`, `each` blanks, and one extra blank
while `remainder` is positive (decrementing it). -/
def betweenGo (each : Nat) : List Str → Nat → Str
  | [], _ => []
  | t :: ts, rem =>
    t ++ blanks each ++ (if 0 < rem then [sp] else []) ++ betweenGo each ts (rem - 1)

/-- `align::between` from `src/align.rs`. -/
def between (txt : List Str) (space : Nat) : Option Str :=
  let len := (txt.map width).sum
  if len > space then none
  else if txt.isEmpty then some (blanks space)
  else if txt.length == 1 then left txt.headI space
  else
    let left_over := space - len
    let pad_places := txt.length - 1
    let each := left_over / pad_places
    let remainder := left_over - each * pad_places
    some (betweenGo each (txt.take pad_places) remainder ++ (txt.getLast?.getD []))

/-- The formatting loop of `align::around`: `fuel` iterations starting at
fragment index `t`; each iteration pushes `each` blanks, one extra blank
while `rem` is positive, and the fragment at the current index if any. -/
def aroundGo (txt : List Str) (each : Nat) : Nat → Nat → Nat → Str
  | _, 0, _ => []
  | t, fuel + 1, rem =>
    blanks each ++ (if 0 < rem then [sp] else []) ++ (txt.getD t [])
      ++ aroundGo txt each (t + 1) fuel (rem - 1)

/-- `align::around` from `src/align.rs`. -/
def around (txt : List Str) (space : Nat) : Option Str :=
  let len := (txt.map width).sum
  if len > space then none
  else if txt.isEmpty then some (blanks space)
  else if txt.length == 1 then center txt.headI space
  else
    let left_over := space - len
    let pad_places := txt.length + 1
    let each := left_over / pad_places
    let remainder := left_over - each * pad_places
    some (aroundGo txt each 0 pad_places remainder)

/-- `table::find_longest` from `src/table.rs`. -/
def find_longest (column : List Str) : Nat :=
  ((column.map width).max?).getD 0

/-- `table::Align` from `src/table.rs`. -/
inductive Align where
  | Left
  | Center
  | Right
  deriving DecidableEq, Repr

/-- `table::Table` from `src/table.rs`: the data plus its layout
configuration. -/
structure Table where
  data : List (List Str)
  priorities : List Nat
  align : Align
  space : Nat
  surround : Bool
  deriving DecidableEq, Repr

/-- One column of the transposed data: the cell at index `c` of every row;
`none` when some row is too short (`row.get(column)?` in the source). -/
def getColumn (data : List (List Str)) (c : Nat) : Option (List Str) :=
  data.mapM (fun row => row.get? c)

/-- The transposition step of `Table::render_partial`: one column per index
below the first row's length; fails when any row is shorter than the first
row. -/
def transposeCols (data : List (List Str)) : Option (List (List Str)) :=
  (List.range data.headI.length).mapM (getColumn data)

/-- The column-selection step of the eviction loop: the position of the
first minimum of the priority list, or `column_count` when the list is
empty (`pri.iter().min()` / `position` / `unwrap_or(column_count)`). -/
def rmIndex (pri : List Nat) (column_count : Nat) : Nat :=
  let rmv := (pri.min?).getD 0
  (pri.findIdx? (fun x => x == rmv)).getD column_count

/-- The mutable state of the column-eviction loop of
`Table::render_partial`. -/
structure EvState where
  data : List (List Str)
  limits : List Nat
  pri : List Nat
  pad_places : Nat
  column_count : Nat
  deriving DecidableEq, Repr

/-- One iteration body of the eviction loop: remove index `rm` from every
row, from the width list and (when nonempty) from the priority list, then
decrement the two counters (`saturating_sub(1)`). -/
def evictStep (s : EvState) (rm : Nat) : EvState :=
  ⟨s.data.map (fun row => row.eraseIdx rm),
   s.limits.eraseIdx rm,
   if s.pri.isEmpty then s.pri else s.pri.eraseIdx rm,
   s.pad_places - 1,
   s.column_count - 1⟩

/-- The eviction `while` loop, fuelled.  `none` is a Rust panic: an
out-of-bounds `Vec::remove` on some row or on the width list.  Each
non-exiting iteration shortens `limits` by one, so fuel
`s.limits.length + 1` (as supplied by `evict`) never runs out. -/
def evictFuel (space : Nat) : Nat → EvState → Option EvState
  | 0, _ => none
  | fuel + 1, s =>
    if s.limits.sum + s.pad_places ≤ space then some s
    else
      let rm := rmIndex s.pri s.column_count
      if (s.data.all fun row => decide (rm < row.length)) && decide (rm < s.limits.length) then
        evictFuel space fuel (evictStep s rm)
      else none

/-- The eviction loop of `Table::render_partial`
(`while limits.iter().sum() + pad_places > self.space { ... }`). -/
def evict (s : EvState) (space : Nat) : Option EvState :=
  evictFuel space (s.limits.length + 1) s

/-- The per-cell alignment dispatch of `Table::render_partial`. -/
def alignCell (al : Align) (txt : Str) (limit : Nat) : Option Str :=
  match al with
  | .Left => left txt limit
  | .Right => right txt limit
  | .Center => center txt limit

/-- Outcome of a render: a Rust `Some(rows)`, a Rust `None` ("no fit"), or
a Rust panic. -/
inductive RenderResult where
  | ok (rows : List Str)
  | noFit
  | panic
  deriving DecidableEq, Repr

/-- The output-formatting loop of `Table::render_partial`: for each row,
align each cell to its column width (`unwrap` panics on failure), then join
the parts with `around` or `between` (`?` propagates "no fit"). -/
def renderRows (al : Align) (surround : Bool) (space : Nat) (limits : List Nat) :
    List (List Str) → RenderResult
  | [] => .ok []
  | row :: rest =>
    match (row.zip limits).mapM (fun p => alignCell al p.1 p.2) with
    | none => .panic
    | some parts =>
      match (if surround then around parts space else between parts space) with
      | none => .noFit
      | some line =>
        match renderRows al surround space limits rest with
        | .ok out => .ok (line :: out)
        | r => r

/-- `Table::render_partial` from `src/table.rs`. -/
def Table.render_partial (t : Table) (offset : Nat) : RenderResult :=
  if t.data.length - offset = 0 then .ok []
  else
    let data := t.data.drop offset
    match transposeCols data with
    | none => .noFit
    | some columns =>
      let limits := columns.map find_longest
      let pad_places := if t.surround then columns.length + 1 else columns.length - 1
      let column_count := columns.length - 1
      match evict ⟨data, limits, t.priorities, pad_places, column_count⟩ t.space with
      | none => .panic
      | some s => renderRows t.align t.surround t.space s.limits s.data

/-- `Table::render` from `src/table.rs`. -/
def Table.render (t : Table) : RenderResult :=
  Table.render_partial t 0

/-! ## Observers used to state the properties -/

/-- The sequence of gap widths laid down by the formatting loops: `n` gaps,
the first `rem` of them one column wider than `each`. -/
def gapSeq (each : Nat) : Nat → Nat → List Nat
  | 0, _ => []
  | n + 1, rem => (if 0 < rem then each + 1 else each) :: gapSeq each n (rem - 1)

/-- Fragments interleaved with gaps, `between`-style:
`t0 ++ gap0 ++ t1 ++ gap1 ++ ... ++ t_last` (no outer gaps). -/
def joinBetween : List Str → List Nat → Str
  | [], _ => []
  | [t], _ => t
  | t :: ts, g :: gs => t ++ blanks g ++ joinBetween ts gs
  | t :: ts, [] => t ++ joinBetween ts []

/-- Fragments interleaved with gaps, `around`-style:
`gap0 ++ t0 ++ gap1 ++ t1 ++ ... ++ gap_last` (outer gaps included; gaps
beyond the fragments are still laid down). -/
def joinAround : List Nat → List Str → Str
  | [], _ => []
  | g :: gs, [] => blanks g ++ joinAround gs []
  | g :: gs, t :: ts => blanks g ++ t ++ joinAround gs ts

/-- The base gap width `left_over / pad_places` computed by `between`. -/
def betweenEach (txt : List Str) (space : Nat) : Nat :=
  (space - (txt.map width).sum) / (txt.length - 1)

/-- The remainder padding `left_over - each * pad_places` computed by
`between`. -/
def betweenRem (txt : List Str) (space : Nat) : Nat :=
  (space - (txt.map width).sum) - betweenEach txt space * (txt.length - 1)

/-- The base gap width `left_over / pad_places` computed by `around`. -/
def aroundEach (txt : List Str) (space : Nat) : Nat :=
  (space - (txt.map width).sum) / (txt.length + 1)

/-- The remainder padding `left_over - each * pad_places` computed by
`around`. -/
def aroundRem (txt : List Str) (space : Nat) : Nat :=
  (space - (txt.map width).sum) - aroundEach txt space * (txt.length + 1)

/-- Number of blank glyphs at the start of a string. -/
def leadingBlanks : Str → Nat
  | [] => 0
  | g :: gs => if g = sp then leadingBlanks gs + 1 else 0

/-- Number of blank glyphs at the end of a string. -/
def trailingBlanks (s : Str) : Nat := leadingBlanks s.reverse

/-- The one-glyph string `"a"`. -/
def strA : Str := [⟨97, 1⟩]

/-- The one-glyph string `"b"`. -/
def strB : Str := [⟨98, 1⟩]

/-- The two-glyph string `"aa"`. -/
def strA2 : Str := [⟨97, 1⟩, ⟨97, 1⟩]

/-- The two-glyph string `"bb"`. -/
def strB2 : Str := [⟨98, 1⟩, ⟨98, 1⟩]

/-- The two-glyph string `"cc"`. -/
def strC2 : Str := [⟨99, 1⟩, ⟨99, 1⟩]

/-- Modelled from the claim's words, for comparison with the code's
`rmIndex`: treat every column without an assigned priority as priority 0
(extend the priority list with zeros up to the column count) and choose the
first column holding the minimum. -/
def specRmIndex (pri : List Nat) (ncols : Nat) : Nat :=
  rmIndex (pri ++ List.replicate (ncols - pri.length) 0) (ncols - 1)

/-- An eviction state with every row truncated to the current column count
(used to relate a table with over-long rows to its rectangular
truncation). -/
def truncState (s : EvState) : EvState :=
  ⟨s.data.map (fun row => row.take s.limits.length),
   s.limits, s.pri, s.pad_places, s.column_count⟩

/-! ## Basic width lemmas -/

@[simp] theorem width_nil : width ([] : Str) = 0 := rfl

@[simp] theorem width_cons (g : Glyph) (s : Str) : width (g :: s) = g.w + width s := by
  simp [width]

@[simp] theorem width_append (a b : Str) : width (a ++ b) = width a + width b := by
  simp [width]

@[simp] theorem width_blanks (n : Nat) : width (blanks n) = n := by
  simp [width, blanks, sp]

/-! ## C4: the three single-fragment alignment functions -/

/-- **C4.** For every text and space: if `space` is at least the display
width of `text`, then `left`, `right` and `center` each succeed, returning
`text` surrounded by runs of blanks (so the non-blank content is `text`)
whose total display width is exactly `space`; if `space` is strictly less
than the display width of `text`, all three return the no-fit result. -/
theorem c4_theorem (txt : Str) (space : Nat) :
    (width txt ≤ space →
      left txt space = some (txt ++ blanks (space - width txt)) ∧
      right txt space = some (blanks (space - width txt) ++ txt) ∧
      center txt space = some (blanks ((space - width txt) / 2) ++ txt
        ++ blanks ((space - width txt) - (space - width txt) / 2)) ∧
      width (txt ++ blanks (space - width txt)) = space ∧
      width (blanks (space - width txt) ++ txt) = space ∧
      width (blanks ((space - width txt) / 2) ++ txt
        ++ blanks ((space - width txt) - (space - width txt) / 2)) = space) ∧
    (space < width txt →
      left txt space = none ∧ right txt space = none ∧ center txt space = none) := by
  constructor
  · intro h
    have hnot : ¬ width txt > space := by omega
    have hd : (space - width txt) / 2 ≤ space - width txt := Nat.div_le_self _ _
    refine ⟨?_, ?_, ?_, ?_, ?_, ?_⟩ <;> simp [left, right, center, hnot] <;> omega
  · intro h
    have hgt : width txt > space := h
    refine ⟨?_, ?_, ?_⟩ <;> simp [left, right, center, hgt]

/-- Witness for C4 at `txt = "a"`: `space = 3` succeeds with two trailing
blanks, `space = 0` is a no-fit. -/
theorem c4_witness : left strA 3 = some (strA ++ blanks 2) ∧ left strA 0 = none := by
  constructor
  · have h := ((c4_theorem strA 3).1 (by decide)).1
    simpa using h
  · exact ((c4_theorem strA 0).2 (by decide)).1

/-! ## Widths of the single-fragment alignments (helper lemmas) -/

theorem width_of_left_eq {txt : Str} {space : Nat} {r : Str}
    (h : left txt space = some r) : width r = space := by
  unfold left at h
  by_cases hgt : width txt > space
  · simp [hgt] at h
  · simp [hgt] at h
    subst h
    simp
    omega

theorem width_of_right_eq {txt : Str} {space : Nat} {r : Str}
    (h : right txt space = some r) : width r = space := by
  unfold right at h
  by_cases hgt : width txt > space
  · simp [hgt] at h
  · simp [hgt] at h
    subst h
    simp
    omega

theorem width_of_center_eq {txt : Str} {space : Nat} {r : Str}
    (h : center txt space = some r) : width r = space := by
  unfold center at h
  by_cases hgt : width txt > space
  · simp [hgt] at h
  · simp [hgt] at h
    subst h
    have hd : (space - width txt) / 2 ≤ space - width txt := Nat.div_le_self _ _
    simp
    omega

/-! ## The gap sequence and the formatting loops -/

theorem gapSeq_length (each n rem : Nat) : (gapSeq each n rem).length = n := by
  induction n generalizing rem with
  | zero => rfl
  | succ n ih => simp [gapSeq, ih]

theorem gapSeq_eq_replicate (each : Nat) : ∀ n rem,
    gapSeq each n rem =
      List.replicate (min rem n) (each + 1) ++ List.replicate (n - rem) each
  | 0, rem => by simp [gapSeq]
  | n + 1, rem => by
    by_cases h : 0 < rem
    · rw [gapSeq, if_pos h, gapSeq_eq_replicate each n (rem - 1),
        show min rem (n + 1) = min (rem - 1) n + 1 by omega,
        show n + 1 - rem = n - (rem - 1) by omega, List.replicate_succ]
      simp
    · rw [gapSeq, if_neg h, gapSeq_eq_replicate each n (rem - 1),
        show rem = 0 by omega]
      simp [List.replicate_succ]

theorem gapSeq_sum (each : Nat) : ∀ n rem,
    (gapSeq each n rem).sum = each * n + min rem n
  | 0, rem => by simp [gapSeq]
  | n + 1, rem => by
    rw [gapSeq, Nat.mul_succ]
    by_cases h : 0 < rem
    · rw [if_pos h, List.sum_cons, gapSeq_sum each n (rem - 1)]
      omega
    · rw [if_neg h, List.sum_cons, gapSeq_sum each n (rem - 1)]
      omega

theorem joinBetween_cons (t : Str) (rest : List Str) (h : rest ≠ []) (g : Nat)
    (gs : List Nat) :
    joinBetween (t :: rest) (g :: gs) = t ++ blanks g ++ joinBetween rest gs := by
  cases rest with
  | nil => exact absurd rfl h
  | cons a as => rfl

theorem betweenGo_eq_join (each : Nat) : ∀ (ts : List Str) (rem : Nat) (tail : Str),
    betweenGo each ts rem ++ tail =
      joinBetween (ts ++ [tail]) (gapSeq each ts.length rem)
  | [], rem, tail => by simp [betweenGo, gapSeq, joinBetween]
  | t :: ts, rem, tail => by
    rw [betweenGo, List.length_cons, gapSeq,
      List.cons_append,
      joinBetween_cons t (ts ++ [tail]) (by simp) _ _,
      ← betweenGo_eq_join each ts (rem - 1) tail]
    by_cases h : 0 < rem
    · simp [h, blanks, List.replicate_succ']
    · simp [h]

theorem width_joinBetween : ∀ (ts : List Str) (gs : List Nat),
    gs.length + 1 = ts.length →
    width (joinBetween ts gs) = (ts.map width).sum + gs.sum
  | [], gs, h => by simp at h
  | [t], gs, h => by
    have : gs = [] := by
      cases gs with
      | nil => rfl
      | cons g gs => simp at h
    subst this
    simp [joinBetween]
  | t :: t' :: ts, gs, h => by
    cases gs with
    | nil => simp at h
    | cons g gs =>
      rw [joinBetween_cons t (t' :: ts) (by simp) g gs]
      simp [width_joinBetween (t' :: ts) gs (by simpa using h)]
      omega

theorem width_joinAround : ∀ (gs : List Nat) (ts : List Str),
    width (joinAround gs ts) = gs.sum + ((ts.take gs.length).map width).sum
  | [], ts => by simp [joinAround]
  | g :: gs, [] => by
    rw [joinAround]
    simp [width_joinAround gs []]
  | g :: gs, t :: ts => by
    rw [joinAround]
    simp [width_joinAround gs ts]
    omega

theorem aroundGo_eq_join (txt : List Str) (each : Nat) : ∀ (fuel t rem : Nat),
    aroundGo txt each t fuel rem = joinAround (gapSeq each fuel rem) (txt.drop t)
  | 0, t, rem => by simp [aroundGo, gapSeq, joinAround]
  | fuel + 1, t, rem => by
    rw [aroundGo, gapSeq, aroundGo_eq_join txt each fuel (t + 1) (rem - 1)]
    by_cases ht : t < txt.length
    · rw [List.drop_eq_getElem_cons ht, joinAround]
      have hgd : txt.getD t [] = txt[t] := by
        rw [List.getD_eq_getElem?_getD, List.getElem?_eq_getElem ht]
        rfl
      rw [hgd]
      by_cases h : 0 < rem
      · simp [h, blanks, List.replicate_succ']
      · simp [h]
    · have hlen : txt.length ≤ t := by omega
      rw [List.drop_eq_nil_of_le hlen, List.drop_eq_nil_of_le (by omega), joinAround]
      have hgd : txt.getD t [] = [] := by
        rw [List.getD_eq_getElem?_getD, List.getElem?_eq_none hlen]
        rfl
      rw [hgd]
      by_cases h : 0 < rem
      · simp [h, blanks, List.replicate_succ']
      · simp [h]

/-- Remainder arithmetic of the padding distribution. -/
theorem div_mul_le_and_sub_lt (lo p : Nat) (hp : 0 < p) :
    lo / p * p ≤ lo ∧ lo - lo / p * p < p := by
  have h1 : lo / p * p + lo % p = lo := by
    rw [Nat.mul_comm]
    exact Nat.div_add_mod lo p
  have h2 := Nat.mod_lt lo hp
  omega

/-- On the two-or-more-fragments path, `between` lays its fragments out
with the gap sequence `gapSeq`. -/
theorem between_eq_join (txt : List Str) (space : Nat) (h2 : 2 ≤ txt.length)
    (hle : (txt.map width).sum ≤ space) :
    between txt space =
      some (joinBetween txt
        (gapSeq (betweenEach txt space) (txt.length - 1) (betweenRem txt space))) := by
  have hne : txt ≠ [] := by
    cases txt with
    | nil => simp at h2
    | cons a as => simp
  have hngt : ¬ (txt.map width).sum > space := by omega
  have hE : txt.isEmpty = false := by
    cases txt with
    | nil => simp at h2
    | cons a as => rfl
  have h1 : (txt.length == 1) = false := by
    simp only [beq_eq_false_iff_ne]
    omega
  have hgl : txt.getLast?.getD [] = txt.getLast hne := by
    rw [List.getLast?_eq_getLast txt hne]
    rfl
  simp only [between, hE, h1, Bool.false_eq_true, if_false, if_neg hngt]
  rw [hgl, show txt.take (txt.length - 1) = txt.dropLast from (List.dropLast_eq_take txt).symm,
    betweenGo_eq_join, List.dropLast_append_getLast hne, List.length_dropLast]
  rfl

/-- On the two-or-more-fragments path, `around` lays its fragments out with
the gap sequence `gapSeq`. -/
theorem around_eq_join (txt : List Str) (space : Nat) (h2 : 2 ≤ txt.length)
    (hle : (txt.map width).sum ≤ space) :
    around txt space =
      some (joinAround
        (gapSeq (aroundEach txt space) (txt.length + 1) (aroundRem txt space)) txt) := by
  have hngt : ¬ (txt.map width).sum > space := by omega
  have hE : txt.isEmpty = false := by
    cases txt with
    | nil => simp at h2
    | cons a as => rfl
  have h1 : (txt.length == 1) = false := by
    simp only [beq_eq_false_iff_ne]
    omega
  simp only [around, hE, h1, Bool.false_eq_true, if_false, if_neg hngt]
  rw [aroundGo_eq_join txt _ (txt.length + 1) 0]
  rfl

/-- Helper: a successful `between` has width exactly `space` (shared by C2
and C5). -/
theorem width_of_between_eq : ∀ {txt : List Str} {space : Nat} {r : Str},
    between txt space = some r → width r = space := by
  intro txt space r h
  by_cases hgt : (txt.map width).sum > space
  · unfold between at h
    rw [if_pos hgt] at h
    cases h
  match txt with
  | [] =>
    unfold between at h
    simp at h
    subst h
    simp
  | [t] =>
    have hh : width t ≤ space ∧ left t space = some r := by
      simpa [between, hgt] using h
    exact width_of_left_eq hh.2
  | t1 :: t2 :: ts =>
    rw [between_eq_join (t1 :: t2 :: ts) space (by simp) (by omega)] at h
    have hr : r = joinBetween (t1 :: t2 :: ts)
        (gapSeq (betweenEach (t1 :: t2 :: ts) space) ((t1 :: t2 :: ts).length - 1)
          (betweenRem (t1 :: t2 :: ts) space)) := by
      exact (Option.some.inj h).symm
    subst hr
    set L := (t1 :: t2 :: ts).length with hL
    have hL2 : 2 ≤ L := by simp [hL]
    set lo := space - ((t1 :: t2 :: ts).map width).sum with hlo
    have hp : 0 < L - 1 := by omega
    have hq := div_mul_le_and_sub_lt lo (L - 1) hp
    rw [width_joinBetween _ _ (by rw [gapSeq_length]; omega), gapSeq_sum]
    have hrem : betweenRem (t1 :: t2 :: ts) space = lo - lo / (L - 1) * (L - 1) := rfl
    have heach : betweenEach (t1 :: t2 :: ts) space = lo / (L - 1) := rfl
    rw [hrem, heach]
    omega

/-- Helper: a successful `around` has width exactly `space` (shared by C2
and C5). -/
theorem width_of_around_eq : ∀ {txt : List Str} {space : Nat} {r : Str},
    around txt space = some r → width r = space := by
  intro txt space r h
  by_cases hgt : (txt.map width).sum > space
  · unfold around at h
    rw [if_pos hgt] at h
    cases h
  match txt with
  | [] =>
    unfold around at h
    simp at h
    subst h
    simp
  | [t] =>
    have hh : width t ≤ space ∧ center t space = some r := by
      simpa [around, hgt] using h
    exact width_of_center_eq hh.2
  | t1 :: t2 :: ts =>
    rw [around_eq_join (t1 :: t2 :: ts) space (by simp) (by omega)] at h
    have hr : r = joinAround
        (gapSeq (aroundEach (t1 :: t2 :: ts) space) ((t1 :: t2 :: ts).length + 1)
          (aroundRem (t1 :: t2 :: ts) space)) (t1 :: t2 :: ts) := by
      exact (Option.some.inj h).symm
    subst hr
    set L := (t1 :: t2 :: ts).length with hL
    set lo := space - ((t1 :: t2 :: ts).map width).sum with hlo
    have hp : 0 < L + 1 := by omega
    have hq := div_mul_le_and_sub_lt lo (L + 1) hp
    rw [width_joinAround, gapSeq_length]
    rw [List.take_of_length_le (by omega)]
    rw [gapSeq_sum]
    have hrem : aroundRem (t1 :: t2 :: ts) space = lo - lo / (L + 1) * (L + 1) := rfl
    have heach : aroundEach (t1 :: t2 :: ts) space = lo / (L + 1) := rfl
    rw [hrem, heach]
    omega

/-! ## C5: `between`/`around` width and padding distribution -/

/-- **C5 counterexample.** The claim asserts that on success the leftover
padding always has the larger gaps before the smaller ones (left bias),
"for every fragment count, including zero and one fragment".  For `around`
with exactly one fragment and an odd leftover this fails: `around ["a"] 2`
delegates to `center`, which puts the extra blank on the right, so the
leading gap (0 blanks) is strictly smaller than the trailing gap
(1 blank). -/
theorem c5_counterexample :
    around [strA] 2 = some (strA ++ blanks 1) ∧
    leadingBlanks (strA ++ blanks 1) < trailingBlanks (strA ++ blanks 1) := by
  decide

/-- **C5 (amended).** When `between` or `around` succeeds the result has
display width exactly `space` (every fragment count).  For two or more
fragments both functions distribute the leftover padding as a run of
`each + 1`-wide gaps followed by a run of `each`-wide gaps — so no two gaps
differ by more than one column and the larger gaps come first (left bias).
For `around` with exactly one fragment the result is the fragment centred
with the extra blank, if any, on the right (right bias), as forced by the
counterexample. -/
theorem c5_theorem :
    (∀ (txt : List Str) (space : Nat) (r : Str),
      between txt space = some r → width r = space) ∧
    (∀ (txt : List Str) (space : Nat) (r : Str),
      around txt space = some r → width r = space) ∧
    (∀ (txt : List Str) (space : Nat), 2 ≤ txt.length → (txt.map width).sum ≤ space →
      between txt space = some (joinBetween txt
        (List.replicate (betweenRem txt space) (betweenEach txt space + 1) ++
         List.replicate (txt.length - 1 - betweenRem txt space) (betweenEach txt space)))) ∧
    (∀ (txt : List Str) (space : Nat), 2 ≤ txt.length → (txt.map width).sum ≤ space →
      around txt space = some (joinAround
        (List.replicate (aroundRem txt space) (aroundEach txt space + 1) ++
         List.replicate (txt.length + 1 - aroundRem txt space) (aroundEach txt space)) txt)) ∧
    (∀ (t : Str) (space : Nat), width t ≤ space →
      around [t] space = some (blanks ((space - width t) / 2) ++ t
        ++ blanks ((space - width t) - (space - width t) / 2))) := by
  refine ⟨fun txt space r h => width_of_between_eq h,
    fun txt space r h => width_of_around_eq h, ?_, ?_, ?_⟩
  · intro txt space h2 hle
    rw [between_eq_join txt space h2 hle, gapSeq_eq_replicate]
    have hp : 0 < txt.length - 1 := by omega
    have hq := div_mul_le_and_sub_lt (space - (txt.map width).sum) (txt.length - 1) hp
    have hmin : min (betweenRem txt space) (txt.length - 1) = betweenRem txt space := by
      unfold betweenRem betweenEach
      omega
    rw [hmin]
  · intro txt space h2 hle
    rw [around_eq_join txt space h2 hle, gapSeq_eq_replicate]
    have hq := div_mul_le_and_sub_lt (space - (txt.map width).sum) (txt.length + 1)
      (by omega)
    have hmin : min (aroundRem txt space) (txt.length + 1) = aroundRem txt space := by
      unfold aroundRem aroundEach
      omega
    rw [hmin]
  · intro t space h
    have hs : (([t] : List Str).map width).sum = width t := by simp
    have hngt : ¬ width t > space := by omega
    simp [around, center, hs, hngt]

/-- Witness for C5: `between ["a", "b"] 4` yields `"a  b"` of width 4, and
`around ["a"] 3` centres `"a"` as `" a "`. -/
theorem c5_witness :
    width (strA ++ blanks 2 ++ strB) = 4 ∧
    around [strA] 3 = some (blanks 1 ++ strA ++ blanks 1) := by
  constructor
  · exact c5_theorem.1 [strA, strB] 4 (strA ++ blanks 2 ++ strB) (by decide)
  · exact Eq.trans (c5_theorem.2.2.2.2 strA 3 (by decide)) (by decide)

/-! ## C2: successful renders produce lines of width exactly `space` -/

/-- Helper: every line produced by the output-formatting loop has width
exactly `space`, because each line is a successful `between`/`around`. -/
theorem renderRows_ok_width (al : Align) (surround : Bool) (space : Nat)
    (limits : List Nat) : ∀ (rows : List (List Str)) (out : List Str),
    renderRows al surround space limits rows = .ok out →
    out.map width = List.replicate out.length space
  | [], out, h => by
    rw [renderRows] at h
    injection h with h
    subst h
    simp
  | row :: rest, out, h => by
    rw [renderRows] at h
    split at h
    · exact RenderResult.noConfusion h
    · rename_i parts halign
      split at h
      · exact RenderResult.noConfusion h
      · rename_i line hline
        split at h
        · rename_i out' hrec
          injection h with h
          subst h
          have hw : width line = space := by
            by_cases hs : surround = true
            · rw [if_pos hs] at hline
              exact width_of_around_eq hline
            · rw [if_neg hs] at hline
              exact width_of_between_eq hline
          have ih := renderRows_ok_width al surround space limits rest out' hrec
          simp [hw, ih, List.replicate_succ]
        · rename_i hne
          exact absurd h (hne out)

/-- **C2.** Whenever `render_partial` succeeds, every returned line has
display width exactly the table's `space` (stated as: the widths of the
output lines are `space`, repeated). -/
theorem c2_theorem (t : Table) (offset : Nat) (out : List Str)
    (h : Table.render_partial t offset = RenderResult.ok out) :
    out.map width = List.replicate out.length t.space := by
  simp only [Table.render_partial] at h
  split at h
  · injection h with h
    subst h
    simp
  · split at h
    · exact RenderResult.noConfusion h
    · split at h
      · exact RenderResult.noConfusion h
      · exact renderRows_ok_width _ _ _ _ _ _ h

/-- Witness for C2: a one-row table of `"a"`, `"b"` at `space = 4` renders
to one line of width 4. -/
theorem c2_witness :
    ([strA ++ blanks 2 ++ strB] : List Str).map width = List.replicate 1 4 :=
  c2_theorem ⟨[[strA, strB]], [], .Left, 4, false⟩ 0 [strA ++ blanks 2 ++ strB] (by decide)

/-! ## C3: the render can fault

`render_partial`'s own contract ("This will return `None` if there is not
enough space to fit the table") promises an explicit no-fit result, but the
eviction loop faults: with `surround = true` and `space = 0` the padding
requirement `pad_places = 1` persists after every column has been evicted,
the loop body runs again, and `row.remove(0)` on an empty row is an
out-of-bounds fault. -/

/-- **C3 (code bug).** Rendering the one-cell table `[["a"]]` with
`surround = true` and `space = 0` faults in the eviction loop instead of
returning the no-fit result. -/
theorem c3_theorem :
    Table.render_partial ⟨[[strA]], [], Align.Left, 0, true⟩ 0
      = RenderResult.panic := by
  decide

/-! ## C7: termination behaviour of the eviction loop -/

/-- Helper: a state the eviction loop exits with satisfies the budget
inequality. -/
theorem evictFuel_some_le (space : Nat) : ∀ (fuel : Nat) (s r : EvState),
    evictFuel space fuel s = some r → r.limits.sum + r.pad_places ≤ space
  | 0, s, r, h => by exact Option.noConfusion h
  | fuel + 1, s, r, h => by
    simp only [evictFuel] at h
    split at h
    · rename_i hc
      injection h with h
      subst h
      exact hc
    · split at h
      · exact evictFuel_some_le space fuel _ r h
      · exact Option.noConfusion h

/-- **C7 counterexample.** The claim says the zero-column state always
satisfies the budget ("padding slot count becomes 0 or is clamped") for
every `space` and surround flag.  With `surround`'s padding count 1 and
`space = 0` the zero-column budget `0 + 1 ≤ 0` fails and the loop faults
instead of stopping successfully. -/
theorem c7_counterexample :
    evict ⟨[[]], [], [], 1, 0⟩ 0 = none ∧ ¬ (([] : List Nat).sum + 1 ≤ 0) := by
  decide

/-- **C7 (amended).** The eviction loop stops successfully, with the state
unchanged, as soon as the width sum plus padding slots is within `space`;
any state it returns satisfies that budget.  The zero-column state
satisfies the budget only when its padding slot count is within `space`
(which fails for `surround` with `space = 0`); otherwise the loop faults
instead of terminating successfully. -/
theorem c7_theorem (s : EvState) (space : Nat) :
    (s.limits.sum + s.pad_places ≤ space → evict s space = some s) ∧
    (∀ r, evict s space = some r → r.limits.sum + r.pad_places ≤ space) ∧
    (s.limits = [] → space < s.pad_places → evict s space = none) := by
  refine ⟨?_, fun r h => evictFuel_some_le space _ s r h, ?_⟩
  · intro h
    rw [evict, evictFuel, if_pos h]
  · intro hnil hlt
    rw [evict, evictFuel, if_neg (by simp [hnil]; omega)]
    simp [hnil]

/-- Witness for C7: a fitting state is returned unchanged; a zero-column
state whose padding exceeds `space` faults. -/
theorem c7_witness :
    evict ⟨[[strA]], [1], [], 0, 0⟩ 5 = some ⟨[[strA]], [1], [], 0, 0⟩ ∧
    evict ⟨[[]], [], [], 2, 1⟩ 1 = none := by
  constructor
  · exact (c7_theorem ⟨[[strA]], [1], [], 0, 0⟩ 5).1 (by decide)
  · exact (c7_theorem ⟨[[]], [], [], 2, 1⟩ 1).2.2 (by decide) (by decide)

/-! ## C1: which column the eviction loop selects -/

/-- Helper: what `findIdx?` returns (with an arbitrary start index): the
first position, counted from the start index, whose element satisfies the
predicate. -/
theorem findIdx?_spec_aux (p : Nat → Bool) : ∀ (l : List Nat) (i k : Nat),
    List.findIdx? p l i = some k →
    i ≤ k ∧ k - i < l.length ∧ p (l.getD (k - i) 0) = true ∧
      ∀ j, j < k - i → p (l.getD j 0) = false
  | [], i, k, h => by
    rw [List.findIdx?_nil] at h
    exact Option.noConfusion h
  | x :: xs, i, k, h => by
    rw [List.findIdx?_cons] at h
    by_cases hx : p x = true
    · rw [if_pos hx] at h
      injection h with h
      subst h
      refine ⟨Nat.le_refl i, by simp, ?_, ?_⟩
      · simpa [Nat.sub_self] using hx
      · intro j hj
        omega
    · rw [if_neg hx] at h
      obtain ⟨h1, h2, h3, h4⟩ := findIdx?_spec_aux p xs (i + 1) k h
      simp only [Bool.not_eq_true] at hx
      refine ⟨by omega, by simp only [List.length_cons]; omega, ?_, ?_⟩
      · rw [show k - i = (k - (i + 1)) + 1 by omega, List.getD_cons_succ]
        exact h3
      · intro j hj
        match j with
        | 0 =>
          rw [List.getD_cons_zero]
          exact hx
        | j + 1 =>
          rw [List.getD_cons_succ]
          exact h4 j (by omega)

/-- **C1 counterexample.** With three columns `"aa" "bb" "cc"`, priorities
`[1, 2]` and `space = 6` (one eviction needed), the code evicts column 0
(the first minimum of the priority list), producing `"bb  cc"`; the claim
says the unassigned column 2, treated as priority 0, is evicted first
(`specRmIndex`, modelled from the claim, picks index 2 while the code's
`rmIndex` picks 0). -/
theorem c1_counterexample :
    Table.render_partial ⟨[[strA2, strB2, strC2]], [1, 2], Align.Left, 6, false⟩ 0
      = RenderResult.ok [strB2 ++ blanks 2 ++ strC2] ∧
    rmIndex [1, 2] 2 = 0 ∧ specRmIndex [1, 2] 3 = 2 := by
  decide

/-- **C1 (amended).** The column selected by the eviction loop is: the
current rightmost column (`column_count`) when the priority list is empty;
otherwise the first (lowest-index) position of the minimum value of the
priority list itself — a position always within the priority list, so
columns beyond a nonempty priority list are never selected by the scan and
are not treated as priority 0.  Ties are broken by the lowest index: every
position before the selected one holds a strictly greater priority. -/
theorem c1_theorem (pri : List Nat) (cc : Nat) :
    (pri = [] → rmIndex pri cc = cc) ∧
    (pri ≠ [] →
      rmIndex pri cc < pri.length ∧
      (∀ j, j < pri.length → pri.getD (rmIndex pri cc) 0 ≤ pri.getD j 0) ∧
      (∀ j, j < rmIndex pri cc → pri.getD (rmIndex pri cc) 0 < pri.getD j 0)) := by
  constructor
  · intro h
    subst h
    rfl
  · intro hne
    cases hm : pri.min? with
    | none => exact absurd (List.min?_eq_none_iff.mp hm) hne
    | some m =>
      have hmm := (List.min?_eq_some_iff (α := Nat) (fun a => Nat.le_refl a)
        (fun a b => by omega) (fun a b c => by omega)).mp hm
      have hrmv : (pri.min?).getD 0 = m := by rw [hm]; rfl
      cases hf : pri.findIdx? (fun x => x == m) with
      | none =>
        have hmf := List.findIdx?_eq_none_iff.mp hf m hmm.1
        simp at hmf
      | some k =>
        obtain ⟨-, hk, hpk, hprev⟩ := findIdx?_spec_aux (fun x => x == m) pri 0 k hf
        simp only [Nat.sub_zero] at hk hpk hprev
        have hr : rmIndex pri cc = k := by
          simp only [rmIndex]
          rw [hrmv, hf]
          rfl
        have hpkm : pri.getD k 0 = m := by simpa using hpk
        rw [hr]
        refine ⟨hk, ?_, ?_⟩
        · intro j hj
          have hjm : pri.getD j 0 ∈ pri := by
            rw [List.getD_eq_getElem _ _ hj]
            exact List.getElem_mem hj
          rw [hpkm]
          exact hmm.2 _ hjm
        · intro j hj
          have hjlen : j < pri.length := by omega
          have hne2 : pri.getD j 0 ≠ m := by simpa using hprev j hj
          have hjm : pri.getD j 0 ∈ pri := by
            rw [List.getD_eq_getElem _ _ hjlen]
            exact List.getElem_mem hjlen
          have hle := hmm.2 _ hjm
          rw [hpkm]
          omega

/-- Witness for C1 (amended): with priorities `[3, 1, 2]` the selected
index is within the list. -/
theorem c1_witness : rmIndex [3, 1, 2] 7 < 3 :=
  ((c1_theorem [3, 1, 2] 7).2 (by decide)).1

/-! ## C10: with empty priorities the rightmost column is evicted -/

/-- Helper: erasing the last index is `dropLast`. -/
theorem eraseIdx_last {α : Type _} : ∀ (l : List α),
    l.eraseIdx (l.length - 1) = l.dropLast
  | [] => rfl
  | [a] => rfl
  | a :: b :: l => by
    have ih := eraseIdx_last (b :: l)
    rw [show (a :: b :: l).length - 1 = (l.length + 1 - 1) + 1 from by simp,
      List.eraseIdx_cons_succ,
      show l.length + 1 - 1 = (b :: l).length - 1 from by simp, ih]
    rfl

/-- Helper: one non-exiting, non-faulting iteration of the eviction loop
removes the selected column and continues. -/
theorem evict_unfold_step (s : EvState) (space : Nat)
    (hcond : ¬ s.limits.sum + s.pad_places ≤ space)
    (hdata : ∀ row ∈ s.data, rmIndex s.pri s.column_count < row.length)
    (hlim : rmIndex s.pri s.column_count < s.limits.length) :
    evict s space = evict (evictStep s (rmIndex s.pri s.column_count)) space := by
  have hlen : (evictStep s (rmIndex s.pri s.column_count)).limits.length
      = s.limits.length - 1 := by
    simp [evictStep, List.length_eraseIdx, hlim]
  have hchecks : ((s.data.all fun row => decide (rmIndex s.pri s.column_count < row.length))
      && decide (rmIndex s.pri s.column_count < s.limits.length)) = true := by
    simp only [Bool.and_eq_true, decide_eq_true_eq, List.all_eq_true]
    exact ⟨fun row hrow => hdata row hrow, hlim⟩
  rw [evict, evict, hlen, show s.limits.length - 1 + 1 = s.limits.length from by omega]
  conv_lhs => rw [evictFuel]
  simp only [if_neg hcond, hchecks, if_true]

/-- **C10.** In a table whose priority list is empty, every iteration of
the eviction loop removes the current rightmost column: whenever the
budget is still exceeded (and the rows are long enough for the removal not
to fault), the selected index is `column_count` = the last column index,
and one iteration erases exactly the last column from every row and from
the width list. -/
theorem c10_theorem (s : EvState) (space : Nat) (h1 : s.pri = [])
    (h2 : s.column_count + 1 = s.limits.length)
    (h3 : space < s.limits.sum + s.pad_places)
    (h4 : ∀ row ∈ s.data, s.limits.length ≤ row.length) :
    rmIndex s.pri s.column_count = s.limits.length - 1 ∧
    evict s space =
      evict ⟨s.data.map (fun row => row.eraseIdx (s.limits.length - 1)),
        s.limits.dropLast, [], s.pad_places - 1, s.column_count - 1⟩ space := by
  have hrm : rmIndex s.pri s.column_count = s.limits.length - 1 := by
    rw [h1]
    have hcc : rmIndex [] s.column_count = s.column_count := rfl
    omega
  refine ⟨hrm, ?_⟩
  have hstep : evictStep s (rmIndex s.pri s.column_count) =
      ⟨s.data.map (fun row => row.eraseIdx (s.limits.length - 1)),
        s.limits.dropLast, [], s.pad_places - 1, s.column_count - 1⟩ := by
    rw [hrm]
    simp [evictStep, h1]
    exact eraseIdx_last s.limits
  rw [← hstep]
  exact evict_unfold_step s space (by omega)
    (fun row hrow => by
      rw [hrm]
      have := h4 row hrow
      omega)
    (by rw [hrm]; omega)

/-- Witness for C10: a two-column state with empty priorities and
`space = 0` evicts the rightmost column (index 1). -/
theorem c10_witness :
    rmIndex ([] : List Nat) 1 = 1 ∧
    evict ⟨[[strA, strB]], [1, 1], [], 1, 1⟩ 0 =
      evict ⟨[[strA]], [1], [], 0, 0⟩ 0 := by
  have h := c10_theorem ⟨[[strA, strB]], [1, 1], [], 1, 1⟩ 0 rfl (by decide) (by decide)
    (by decide)
  exact h

/-! ## C8: monotonicity of column survival in `space` -/

/-- Helper: the eviction loop never grows the column list. -/
theorem evictFuel_some_length_le (space : Nat) : ∀ (fuel : Nat) (s r : EvState),
    evictFuel space fuel s = some r → r.limits.length ≤ s.limits.length
  | 0, _, _, h => Option.noConfusion h
  | fuel + 1, s, r, h => by
    simp only [evictFuel] at h
    split at h
    · injection h with h
      subst h
      exact Nat.le_refl _
    · split at h
      · have hrec := evictFuel_some_length_le space fuel _ r h
        have hle : ((evictStep s (rmIndex s.pri s.column_count)).limits).length
            ≤ s.limits.length := by
          simp only [evictStep, List.length_eraseIdx]
          split <;> omega
        omega
      · exact Option.noConfusion h

/-- Helper: for a fixed starting state and fuel, the eviction loop runs the
same removal sequence whatever the space budget; a larger budget only exits
earlier, so it keeps at least as many columns. -/
theorem evictFuel_mono (space1 space2 : Nat) (h12 : space1 ≤ space2) :
    ∀ (fuel : Nat) (s r1 r2 : EvState),
    evictFuel space1 fuel s = some r1 → evictFuel space2 fuel s = some r2 →
    r1.limits.length ≤ r2.limits.length
  | 0, _, _, _, h1, _ => Option.noConfusion h1
  | fuel + 1, s, r1, r2, h1, h2 => by
    simp only [evictFuel] at h1 h2
    by_cases hc1 : s.limits.sum + s.pad_places ≤ space1
    · rw [if_pos hc1] at h1
      rw [if_pos (by omega)] at h2
      injection h1 with h1
      injection h2 with h2
      subst h1
      subst h2
      exact Nat.le_refl _
    · rw [if_neg hc1] at h1
      by_cases hc2 : s.limits.sum + s.pad_places ≤ space2
      · rw [if_pos hc2] at h2
        injection h2 with h2
        subst h2
        split at h1
        · have hr1 := evictFuel_some_length_le space1 fuel _ r1 h1
          have hle : ((evictStep s (rmIndex s.pri s.column_count)).limits).length
              ≤ s.limits.length := by
            simp only [evictStep, List.length_eraseIdx]
            split <;> omega
          omega
        · exact Option.noConfusion h1
      · rw [if_neg hc2] at h2
        split at h1
        · rename_i hcheck
          rw [if_pos hcheck] at h2
          exact evictFuel_mono space1 space2 h12 fuel _ r1 r2 h1 h2
        · exact Option.noConfusion h1

/-- **C8.** For a fixed table state entering the eviction loop, the number
of surviving columns is monotone in `space`: whenever the loop completes
for two budgets `space1 ≤ space2`, the larger budget keeps at least as many
columns. -/
theorem c8_theorem (s : EvState) (space1 space2 : Nat) (r1 r2 : EvState)
    (h12 : space1 ≤ space2)
    (h1 : evict s space1 = some r1) (h2 : evict s space2 = some r2) :
    r1.limits.length ≤ r2.limits.length :=
  evictFuel_mono space1 space2 h12 (s.limits.length + 1) s r1 r2 h1 h2

/-- Witness for C8: a two-column state at budgets 1 and 3 keeps 1 and 2
columns respectively. -/
theorem c8_witness :
    (⟨[[strA]], [1], [], 0, 0⟩ : EvState).limits.length ≤
      (⟨[[strA, strB]], [1, 1], [], 1, 1⟩ : EvState).limits.length :=
  c8_theorem ⟨[[strA, strB]], [1, 1], [], 1, 1⟩ 1 3 ⟨[[strA]], [1], [], 0, 0⟩
    ⟨[[strA, strB]], [1, 1], [], 1, 1⟩ (by omega) (by decide) (by decide)

/-! ## C6: ragged-row detection -/

/-- Helper: `mapM` over `Option` fails as soon as one element fails. -/
theorem option_mapM_eq_none_of_mem {α β : Type _} {f : α → Option β} :
    ∀ {l : List α} {c : α}, c ∈ l → f c = none → l.mapM f = none := by
  intro l
  induction l with
  | nil =>
    intro c hc
    cases hc
  | cons a as ih =>
    intro c hc hf
    rw [List.mapM_cons]
    rcases List.mem_cons.mp hc with h | h
    · subst h
      rw [hf]
      rfl
    · cases hfa : f a with
      | none => rfl
      | some b =>
        rw [ih h hf]
        rfl

/-- Helper: a column index at or beyond some row's length makes the
transposition of that column fail. -/
theorem getColumn_eq_none {data : List (List Str)} {c : Nat} (row : List Str)
    (hrow : row ∈ data) (hc : row.length ≤ c) : getColumn data c = none :=
  option_mapM_eq_none_of_mem hrow (List.get?_eq_none.mpr hc)

/-- Helper: a row strictly shorter than the first row makes the whole
transposition fail. -/
theorem transposeCols_eq_none {data : List (List Str)} (row : List Str)
    (hrow : row ∈ data) (hshort : row.length < data.headI.length) :
    transposeCols data = none :=
  option_mapM_eq_none_of_mem (List.mem_range.mpr hshort)
    (getColumn_eq_none row hrow (Nat.le_refl _))

/-- **C6 counterexample.** The claim says any disagreement in cell count
among the surviving rows yields the no-fit result.  But only rows *shorter*
than the first surviving row are rejected: rows `[["a"], ["a", "b"]]`
(unequal cell counts, second row longer) render successfully at
`space = 1`. -/
theorem c6_counterexample :
    Table.render_partial ⟨[[strA], [strA, strB]], [], Align.Left, 1, false⟩ 0
      = RenderResult.ok [strA, strA] ∧
    ([strA] : List Str).length ≠ ([strA, strB] : List Str).length := by
  decide

/-- **C6 (amended).** `render_partial` returns the no-fit result whenever
some surviving row is strictly *shorter* than the first surviving row (the
first row defines the expected column count; longer rows are not
rejected).  In particular rows `[["a"], []]` fail for any space. -/
theorem c6_theorem (t : Table) (offset : Nat)
    (row : List Str) (hrow : row ∈ t.data.drop offset)
    (hshort : row.length < (t.data.drop offset).headI.length) :
    Table.render_partial t offset = RenderResult.noFit := by
  have hne : t.data.drop offset ≠ [] := by
    intro h
    rw [h] at hrow
    cases hrow
  have h0 : ¬ (t.data.length - offset = 0) := by
    intro h
    exact hne (List.drop_eq_nil_of_le (by omega))
  simp only [Table.render_partial, if_neg h0]
  rw [transposeCols_eq_none row hrow hshort]

/-- Witness for C6 (amended): `[["a"], []]` is rejected at `space = 5`. -/
theorem c6_witness :
    Table.render_partial ⟨[[strA], []], [], Align.Left, 5, false⟩ 0
      = RenderResult.noFit :=
  c6_theorem ⟨[[strA], []], [], Align.Left, 5, false⟩ 0 [] (by decide) (by decide)

/-! ## C9: rows longer than the first surviving row -/

/-- Helper: zipping ignores any part of the left list beyond the right
list's length. -/
theorem zip_take_eq {α β : Type _} : ∀ (l : List α) (l2 : List β) (n : Nat),
    l2.length ≤ n → (l.take n).zip l2 = l.zip l2
  | [], l2, n, _ => by simp
  | a :: l, [], n, _ => by simp
  | a :: l, b :: l2, n, h => by
    match n with
    | m + 1 =>
      simp only [List.take_succ_cons, List.zip_cons_cons]
      rw [zip_take_eq l l2 m (by simpa using h)]

/-- Helper: erasing an index inside the taken prefix commutes with
truncation. -/
theorem eraseIdx_take {α : Type _} : ∀ (l : List α) (n rm : Nat), rm < n →
    (l.take n).eraseIdx rm = (l.eraseIdx rm).take (n - 1)
  | [], n, rm, _ => by simp
  | a :: l, n, rm, h => by
    match n, rm with
    | m + 1, 0 => simp
    | m + 1, k + 1 =>
      simp only [List.take, List.eraseIdx_cons_succ]
      rw [eraseIdx_take l m k (by omega)]
      match m, (by omega : 1 ≤ m) with
      | m' + 1, _ => simp

/-- Helper: `mapM` over a mapped list composes the functions. -/
theorem option_mapM_map {α β γ : Type _} (g : α → β) (f : β → Option γ) :
    ∀ (l : List α), (l.map g).mapM f = l.mapM (fun a => f (g a))
  | [] => rfl
  | a :: l => by
    rw [List.map_cons, List.mapM_cons, List.mapM_cons, option_mapM_map g f l]

/-- Helper: `mapM` only depends on the function's values on the list. -/
theorem option_mapM_congr {α β : Type _} {f g : α → Option β} :
    ∀ {l : List α}, (∀ a ∈ l, f a = g a) → l.mapM f = l.mapM g
  | [], _ => rfl
  | a :: l, h => by
    rw [List.mapM_cons, List.mapM_cons, h a (by simp),
      option_mapM_congr (fun b hb => h b (by simp [hb]))]

/-- Helper: a successful `mapM` preserves the length. -/
theorem option_mapM_some_length {α β : Type _} {f : α → Option β} :
    ∀ {l : List α} {l' : List β}, l.mapM f = some l' → l'.length = l.length
  | [], l', h => by
    rw [List.mapM_nil] at h
    injection h with h
    subst h
    rfl
  | a :: l, l', h => by
    rw [List.mapM_cons] at h
    cases hfa : f a with
    | none =>
      rw [hfa] at h
      exact Option.noConfusion h
    | some b =>
      rw [hfa] at h
      cases hrest : l.mapM f with
      | none =>
        rw [hrest] at h
        exact Option.noConfusion h
      | some bs =>
        rw [hrest] at h
        injection h with h
        subst h
        simp [option_mapM_some_length hrest]

/-- Helper: the eviction loop acts identically on a table and on its
row-truncation to the current column count; the loop's result states stay
related by the same truncation. -/
theorem evictFuel_trunc (space : Nat) : ∀ (fuel : Nat) (s : EvState),
    (∀ row ∈ s.data, s.limits.length ≤ row.length) →
    evictFuel space fuel (truncState s) = (evictFuel space fuel s).map truncState
  | 0, _, _ => rfl
  | fuel + 1, s, hlen => by
    simp only [evictFuel]
    by_cases hc : s.limits.sum + s.pad_places ≤ space
    · rw [if_pos hc, if_pos (show (truncState s).limits.sum + (truncState s).pad_places ≤ space
        from hc)]
      rfl
    · rw [if_neg hc, if_neg (show ¬ (truncState s).limits.sum + (truncState s).pad_places ≤ space
        from hc)]
      have hpri : (truncState s).pri = s.pri := rfl
      have hcc : (truncState s).column_count = s.column_count := rfl
      rw [hpri, hcc]
      by_cases hb : rmIndex s.pri s.column_count < s.limits.length
      · have hAll : (s.data.all fun row =>
            decide (rmIndex s.pri s.column_count < row.length)) = true := by
          simp only [List.all_eq_true, decide_eq_true_eq]
          intro row hrow
          have := hlen row hrow
          omega
        have hAll' : ((truncState s).data.all fun row =>
            decide (rmIndex s.pri s.column_count < row.length)) = true := by
          simp only [truncState, List.all_eq_true, List.mem_map, decide_eq_true_eq]
          rintro r ⟨row, hrow, rfl⟩
          have := hlen row hrow
          simp only [List.length_take]
          omega
        have hdec : decide (rmIndex s.pri s.column_count < s.limits.length) = true := by
          simpa using hb
        have hlimtr : (truncState s).limits = s.limits := rfl
        rw [hlimtr, hAll, hAll', hdec]
        simp only [Bool.and_self, if_true]
        have hstep : evictStep (truncState s) (rmIndex s.pri s.column_count)
            = truncState (evictStep s (rmIndex s.pri s.column_count)) := by
          simp only [evictStep, truncState, List.map_map]
          refine congrArg (fun d => EvState.mk d _ _ _ _) ?_
          apply List.map_congr_left
          intro row hrow
          simp only [Function.comp]
          rw [List.length_eraseIdx, if_pos hb]
          exact eraseIdx_take row s.limits.length (rmIndex s.pri s.column_count) hb
        rw [hstep]
        refine evictFuel_trunc space fuel (evictStep s (rmIndex s.pri s.column_count)) ?_
        intro row' hrow'
        simp only [evictStep, List.mem_map] at hrow'
        obtain ⟨row, hrow, rfl⟩ := hrow'
        have h1 := hlen row hrow
        simp only [evictStep, List.length_eraseIdx]
        rw [if_pos hb, if_pos (show rmIndex s.pri s.column_count < row.length by omega)]
        omega
      · have hdec : decide (rmIndex s.pri s.column_count < s.limits.length) = false := by
          simpa using hb
        have hlimtr : (truncState s).limits = s.limits := rfl
        rw [hlimtr, hdec]
        simp only [Bool.and_false, Bool.false_eq_true, if_false]
        rfl

/-- Helper: the output loop ignores row cells beyond the column-width
list, because each row is zipped against the width list. -/
theorem renderRows_take (al : Align) (sur : Bool) (space : Nat) (limits : List Nat) :
    ∀ rows, renderRows al sur space limits (rows.map (fun row => row.take limits.length))
      = renderRows al sur space limits rows
  | [] => rfl
  | row :: rest => by
    rw [List.map_cons, renderRows, renderRows,
      zip_take_eq row limits limits.length (Nat.le_refl _),
      renderRows_take al sur space limits rest]

/-- Helper: eviction followed by the output loop gives the same outcome on
a state and on its row-truncation. -/
theorem render_after_evict_trunc (al : Align) (sur : Bool) (sp : Nat) (s0 : EvState)
    (hlen : ∀ row ∈ s0.data, s0.limits.length ≤ row.length) :
    (match evict (truncState s0) sp with
     | none => RenderResult.panic
     | some s => renderRows al sur sp s.limits s.data) =
    (match evict s0 sp with
     | none => RenderResult.panic
     | some s => renderRows al sur sp s.limits s.data) := by
  rw [evict, evict, show (truncState s0).limits.length = s0.limits.length from rfl,
    evictFuel_trunc sp (s0.limits.length + 1) s0 hlen]
  cases hev : evictFuel sp (s0.limits.length + 1) s0 with
  | none => rfl
  | some r => exact renderRows_take al sur sp r.limits r.data

/-- **C9.** If every row after the offset is at least as long as the first
surviving row, `render_partial` behaves exactly as on the table whose rows
are truncated to the first surviving row's length: longer rows are not
rejected as ragged, the render succeeds whenever the truncated (rectangular)
table's render succeeds, and the extra trailing cells are silently absent
from the output. -/
theorem c9_theorem (t : Table) (offset : Nat)
    (hlen : ∀ row ∈ t.data.drop offset, (t.data.drop offset).headI.length ≤ row.length) :
    Table.render_partial
      { t with data := t.data.map (fun row => row.take (t.data.drop offset).headI.length) }
      offset = Table.render_partial t offset := by
  set L := (t.data.drop offset).headI.length with hL
  simp only [Table.render_partial]
  have hlen_eq : (t.data.map (fun row => row.take L)).length = t.data.length := by simp
  by_cases h0 : t.data.length - offset = 0
  · rw [if_pos (by rw [hlen_eq]; exact h0), if_pos h0]
  · rw [if_neg (by rw [hlen_eq]; exact h0), if_neg h0]
    have hdrop : (t.data.map (fun row => row.take L)).drop offset
        = (t.data.drop offset).map (fun row => row.take L) :=
      (List.map_drop _ _ _).symm
    rw [hdrop]
    have hddne : t.data.drop offset ≠ [] := by
      intro h
      apply h0
      have := congrArg List.length h
      simpa using this
    have hheadI : ((t.data.drop offset).map (fun (row : List Str) => row.take L)).headI.length
        = L := by
      cases hdd : t.data.drop offset with
      | nil => exact absurd hdd hddne
      | cons r rs =>
        have hr : L = r.length := by
          rw [hL, hdd]
          rfl
        rw [List.map_cons]
        show (r.take L).length = L
        rw [List.length_take]
        omega
    have htr : transposeCols ((t.data.drop offset).map (fun row => row.take L))
        = transposeCols (t.data.drop offset) := by
      unfold transposeCols
      rw [hheadI, ← hL]
      apply option_mapM_congr
      intro c hc
      have hcL : c < L := List.mem_range.mp hc
      unfold getColumn
      rw [option_mapM_map]
      apply option_mapM_congr
      intro row hrow
      exact List.get?_take hcL
    rw [htr]
    cases htc : transposeCols (t.data.drop offset) with
    | none => rfl
    | some columns =>
      have hcols_len : columns.length = L := by
        have h1 := option_mapM_some_length htc
        simpa [hL] using h1
      have hlim_len : (columns.map find_longest).length = L := by
        simpa using hcols_len
      rw [← hlim_len]
      exact render_after_evict_trunc t.align t.surround t.space
        ⟨t.data.drop offset, columns.map find_longest, t.priorities,
          if t.surround then columns.length + 1 else columns.length - 1,
          columns.length - 1⟩
        (by
          intro row hrow
          have := hlen row hrow
          simpa [hlim_len] using this)

/-- Witness for C9: the table `[["a"], ["a", "b"]]` (second row longer)
renders exactly like its rectangular truncation `[["a"], ["a"]]`. -/
theorem c9_witness :
    Table.render_partial ⟨[[strA], [strA]], [], Align.Left, 3, false⟩ 0
      = Table.render_partial ⟨[[strA], [strA, strB]], [], Align.Left, 3, false⟩ 0 := by
  have h := c9_theorem ⟨[[strA], [strA, strB]], [], Align.Left, 3, false⟩ 0 (by decide)
  exact h

end Alinio
